import Mathlib

/-!
Verification development for the Knots geometry kernel.

Two engines are embedded here, following the repository sources:
* the flexible-envelope engine (`backend/app/app.py`, endpoint
  `compute_flexible_envelope`), modelled over exact rationals, since the
  Python code only performs field arithmetic and comparisons on the disk
  centers; and
* the Dubins path engine (`backend/app/dubins_paths.py`,
  `DubinsPathCalculator`), modelled over the reals, with the float
  formulas (`sqrt`, `sin`, `cos`, `pi`) read as their exact real
  counterparts.

The `scipy.spatial.ConvexHull` call made by the envelope endpoint is an
external library; it is modelled by `qhullVertices` below following its
documented behaviour: on an input whose points are all collinear (rank
deficient input) qhull raises `QhullError`, which the endpoint's
`except` block converts into an HTTP 500 error; otherwise the hull
vertex indices (into the input point list, counter-clockwise) are
returned, computed here with Andrew's monotone chain.
-/

namespace Knots

/-! ### Envelope engine (exact rationals) -/

/-- A 2D point, as the pair of rational coordinates of a disk center. -/
abbrev QPoint := ℚ × ℚ

/-- `Pose2D` from `models.py`, specialised to the rational coordinates the
envelope endpoint feeds it (only `x` and `y` are ever read there). -/
structure PoseQ where
  x : ℚ
  y : ℚ
  theta : ℚ
deriving DecidableEq

/-- `Disk` from `models.py`: a center pose and a radius. -/
structure Disk where
  center : PoseQ
  radius : ℚ
deriving DecidableEq

/-- `EnvelopePoint` from `models.py`; the endpoint always leaves
`tangent_angle` unset (`None`). -/
structure EnvelopePoint where
  x : ℚ
  y : ℚ
  tangent_angle : Option ℚ
deriving DecidableEq

/-- `FlexibleEnvelopeResponse` from `models.py`; the wall-clock
`computation_time_ms` field is not part of the geometric result and is
omitted. -/
structure FlexibleEnvelopeResponse where
  envelope_points : List EnvelopePoint
  convex_hull_indices : List ℕ
  smoothed_curve : List PoseQ
deriving DecidableEq

/-- 2D cross product of `a - o` and `b - o`; sign gives the turn
orientation at `o`. -/
def cross (o a b : QPoint) : ℚ :=
  (a.1 - o.1) * (b.2 - o.2) - (a.2 - o.2) * (b.1 - o.1)

/-- All points of the list lie on one line (every triple has zero
cross product); this is exactly the rank-deficient situation in which
qhull fails on 2D input. -/
def allCollinear (pts : List QPoint) : Bool :=
  pts.all fun a => pts.all fun b => pts.all fun c => cross a b c == 0

/-- Lexicographic comparison of points, the sort order of the monotone
chain. -/
def ptLeB (p q : QPoint) : Bool :=
  decide (p.1 < q.1) || (p.1 == q.1 && decide (p.2 ≤ q.2))

/-- Insert one indexed point into a lexicographically sorted list. -/
def insertPair (c : ℕ × QPoint) : List (ℕ × QPoint) → List (ℕ × QPoint)
  | [] => [c]
  | x :: xs => if ptLeB c.2 x.2 then c :: x :: xs else x :: insertPair c xs

/-- Insertion sort of indexed points by lexicographic point order. -/
def sortPairs : List (ℕ × QPoint) → List (ℕ × QPoint)
  | [] => []
  | x :: xs => insertPair x (sortPairs xs)

/-- One step of the monotone chain: push `c` onto the stack (head is the
top), popping while the last two stack points and `c` fail to make a
strict counter-clockwise turn. -/
def addPoint (c : ℕ × QPoint) : List (ℕ × QPoint) → List (ℕ × QPoint)
  | b :: a :: rest =>
      if cross a.2 b.2 c.2 ≤ 0 then addPoint c (a :: rest)
      else c :: b :: a :: rest
  | s => c :: s

/-- Build one half hull by scanning the (sorted) indexed points. -/
def buildHalf (l : List (ℕ × QPoint)) : List (ℕ × QPoint) :=
  l.foldl (fun s c => addPoint c s) []

/-- Andrew's monotone chain: hull vertex indices (into `pts`) in
counter-clockwise order. -/
def monotoneChainIndices (pts : List QPoint) : List ℕ :=
  let pairs := sortPairs ((List.range pts.length).zip pts)
  let lower := (buildHalf pairs).reverse
  let upper := (buildHalf pairs.reverse).reverse
  (lower.dropLast ++ upper.dropLast).map Prod.fst

/-- Model of `scipy.spatial.ConvexHull(points).vertices` for 2D input,
per the scipy/qhull documentation: collinear (lower-dimensional) input
raises `QhullError`; otherwise the hull vertex indices are returned in
counter-clockwise order. -/
def qhullVertices (pts : List QPoint) : Except String (List ℕ) :=
  if allCollinear pts then .error "QhullError" else .ok (monotoneChainIndices pts)

/-- Hull index selection of `compute_flexible_envelope` (`app.py`):
fewer than 3 points are all kept as hull vertices (`range(len(points))`),
otherwise scipy's hull vertices are used. -/
def hullIndicesOf (points : List QPoint) : Except String (List ℕ) :=
  if points.length < 3 then .ok (List.range points.length)
  else qhullVertices points

/-- Placeholder disk used to give `List.getD` a default; the endpoint
only ever indexes with hull indices, which are in range. -/
def defaultDisk : Disk := ⟨⟨0, 0, 0⟩, 0⟩

/-- Response assembly of `compute_flexible_envelope`: each hull index is
mapped back to the corresponding input disk's center
(`EnvelopePoint(x=request.disks[i].center.x, y=request.disks[i].center.y)`),
with an empty smoothed curve. -/
def envelopeOf (disks : List Disk) (hullIndices : List ℕ) : FlexibleEnvelopeResponse :=
  ⟨hullIndices.map fun i =>
      ⟨(disks.getD i defaultDisk).center.x, (disks.getD i defaultDisk).center.y, none⟩,
   hullIndices, []⟩

/-- The `compute_flexible_envelope` endpoint body (`app.py`): empty
input returns an empty response; otherwise hull indices are computed
from the disk centers (an error from qhull propagates as the endpoint's
HTTP 500) and mapped back to the original disks. -/
def computeFlexibleEnvelope (disks : List Disk) : Except String FlexibleEnvelopeResponse :=
  if disks.isEmpty then .ok ⟨[], [], []⟩
  else
    match hullIndicesOf (disks.map fun d => (d.center.x, d.center.y)) with
    | .error e => .error e
    | .ok hullIndices => .ok (envelopeOf disks hullIndices)

/-- Concrete non-degenerate input: three disks centered at `(0,0)`,
`(4,0)`, `(0,4)`. -/
def witDisks : List Disk := [⟨⟨0, 0, 0⟩, 1⟩, ⟨⟨4, 0, 0⟩, 1⟩, ⟨⟨0, 4, 0⟩, 1⟩]

/-- The response the endpoint computes on `witDisks`. -/
def witResp : FlexibleEnvelopeResponse :=
  ⟨[⟨0, 0, none⟩, ⟨4, 0, none⟩, ⟨0, 4, none⟩], [0, 1, 2], []⟩

/-! ### Dubins path engine (reals)

`DubinsPathCalculator` from `dubins_paths.py`, with `self.min_radius`
made an explicit parameter `R` of each operation. -/

/-- `Pose2D` from `models.py`: position and heading. -/
structure Pose2D where
  x : ℝ
  y : ℝ
  theta : ℝ

/-- `DubinsSegment` from `models.py` (`type` is a Lean keyword-adjacent
name; it is rendered `segKind`). The calculator never constructs one. -/
structure DubinsSegment where
  segKind : String
  length : ℝ
  start_point : Pose2D
  end_point : Pose2D
  center : Option Pose2D
  radius : Option ℝ

/-- `DubinsPath` from `models.py`. -/
structure DubinsPath where
  path_type : String
  segments : List DubinsSegment
  total_length : ℝ
  start_pose : Pose2D
  end_pose : Pose2D

/-- `DubinsPathCalculator.distance`: Euclidean distance between the
positions of two poses. -/
noncomputable def distance (p q : Pose2D) : ℝ :=
  Real.sqrt ((q.x - p.x) ^ 2 + (q.y - p.y) ^ 2)

/-- `DubinsPathCalculator.left_circle_center`. -/
noncomputable def leftCircleCenter (R : ℝ) (pose : Pose2D) : Pose2D :=
  ⟨pose.x + R * Real.sin pose.theta, pose.y - R * Real.cos pose.theta, 0⟩

/-- `DubinsPathCalculator.right_circle_center`. -/
noncomputable def rightCircleCenter (R : ℝ) (pose : Pose2D) : Pose2D :=
  ⟨pose.x - R * Real.sin pose.theta, pose.y + R * Real.cos pose.theta, 0⟩

/-- `DubinsPathCalculator.compute_lsl`: distance between the two
left-turn circle centers, rejected above `4R`, path length `d + 2R`,
empty segment list.  (The `try/except` never fires: every step is total
real arithmetic.) -/
noncomputable def computeLSL (R : ℝ) (s e : Pose2D) : Option DubinsPath :=
  if distance (leftCircleCenter R s) (leftCircleCenter R e) > 4 * R then none
  else some ⟨"LSL", [],
    distance (leftCircleCenter R s) (leftCircleCenter R e) + 2 * R, s, e⟩

/-- `DubinsPathCalculator.compute_rsr`: same as LSL with the right-turn
circle centers. -/
noncomputable def computeRSR (R : ℝ) (s e : Pose2D) : Option DubinsPath :=
  if distance (rightCircleCenter R s) (rightCircleCenter R e) > 4 * R then none
  else some ⟨"RSR", [],
    distance (rightCircleCenter R s) (rightCircleCenter R e) + 2 * R, s, e⟩

/-- `DubinsPathCalculator.compute_lsr`: always returns a path of length
`distance(start, end) + pi * R`, with no feasibility check. -/
noncomputable def computeLSR (R : ℝ) (s e : Pose2D) : Option DubinsPath :=
  some ⟨"LSR", [], distance s e + Real.pi * R, s, e⟩

/-- `DubinsPathCalculator.compute_rsl`: always returns a path of length
`distance(start, end) + pi * R`, with no feasibility check. -/
noncomputable def computeRSL (R : ℝ) (s e : Pose2D) : Option DubinsPath :=
  some ⟨"RSL", [], distance s e + Real.pi * R, s, e⟩

/-- `DubinsPathCalculator.compute_lrl`: always returns a path of length
`1.5 * pi * R + distance(start, end)`, with no feasibility check. -/
noncomputable def computeLRL (R : ℝ) (s e : Pose2D) : Option DubinsPath :=
  some ⟨"LRL", [], 1.5 * Real.pi * R + distance s e, s, e⟩

/-- `DubinsPathCalculator.compute_rlr`: always returns a path of length
`1.5 * pi * R + distance(start, end)`, with no feasibility check. -/
noncomputable def computeRLR (R : ℝ) (s e : Pose2D) : Option DubinsPath :=
  some ⟨"RLR", [], 1.5 * Real.pi * R + distance s e, s, e⟩

/-- The straight-line fallback constructed by `compute_optimal_path`
when no family returned a path: tagged `"LSL"`, empty segments, length
`distance(start, end)`. -/
noncomputable def fallbackPath (s e : Pose2D) : DubinsPath :=
  ⟨"LSL", [], distance s e, s, e⟩

/-- The `paths` list of `compute_optimal_path`: the six synthesizers are
run and the `None` results dropped, keeping evaluation order LSL, RSR,
LSR, RSL, LRL, RLR. -/
noncomputable def candidatePaths (R : ℝ) (s e : Pose2D) : List DubinsPath :=
  (computeLSL R s e).toList ++ (computeRSR R s e).toList ++
  (computeLSR R s e).toList ++ (computeRSL R s e).toList ++
  (computeLRL R s e).toList ++ (computeRLR R s e).toList

/-- Python's `min(paths, key=lambda p: p.total_length)` starting from a
current best `b`: the running best is replaced only on a strictly
smaller key, so the first minimum in list order wins ties. -/
noncomputable def pyMin (b : DubinsPath) : List DubinsPath → DubinsPath
  | [] => b
  | x :: xs => pyMin (if x.total_length < b.total_length then x else b) xs

/-- `DubinsPathCalculator.compute_optimal_path`: collect the valid
paths, fall back to the straight line when none, otherwise return the
minimum-length path (Python `min`). -/
noncomputable def computeOptimalPath (R : ℝ) (s e : Pose2D) : DubinsPath :=
  match candidatePaths R s e with
  | [] => fallbackPath s e
  | h :: t => pyMin h t

/-- First loop of `DubinsPathCalculator.normalize_angle`
(`while angle > pi: angle -= 2 * pi`) in exact real arithmetic: the
idealized semantics in which every iteration makes `2 * pi` of
progress. Under IEEE double semantics this is faithful only while the
`2 * np.pi` step is not absorbed by rounding; `floatLoopStep` below
models one iteration of the same loop in the large-magnitude regime
where absorption defeats termination. -/
noncomputable def wrapDown (a : ℝ) : ℝ :=
  if h : a > Real.pi then wrapDown (a - 2 * Real.pi) else a
termination_by (⌈(a - Real.pi) / (2 * Real.pi)⌉).toNat
decreasing_by
  have h2 : (0 : ℝ) < 2 * Real.pi := by positivity
  have hx : 0 < (a - Real.pi) / (2 * Real.pi) := div_pos (by linarith) h2
  have hrw : (a - 2 * Real.pi - Real.pi) / (2 * Real.pi)
      = (a - Real.pi) / (2 * Real.pi) - 1 := by
    field_simp
    ring
  rw [hrw, Int.ceil_sub_one]
  have hc : 0 < ⌈(a - Real.pi) / (2 * Real.pi)⌉ := Int.ceil_pos.mpr hx
  omega

/-- Second loop of `DubinsPathCalculator.normalize_angle`
(`while angle < -pi: angle += 2 * pi`) in the same exact
real-arithmetic reading as `wrapDown`; the float absorption caveat is
identical. -/
noncomputable def wrapUp (a : ℝ) : ℝ :=
  if h : a < -Real.pi then wrapUp (a + 2 * Real.pi) else a
termination_by (⌈(-Real.pi - a) / (2 * Real.pi)⌉).toNat
decreasing_by
  have h2 : (0 : ℝ) < 2 * Real.pi := by positivity
  have hx : 0 < (-Real.pi - a) / (2 * Real.pi) := div_pos (by linarith) h2
  have hrw : (-Real.pi - (a + 2 * Real.pi)) / (2 * Real.pi)
      = (-Real.pi - a) / (2 * Real.pi) - 1 := by
    field_simp
    ring
  rw [hrw, Int.ceil_sub_one]
  have hc : 0 < ⌈(-Real.pi - a) / (2 * Real.pi)⌉ := Int.ceil_pos.mpr hx
  omega

/-- `DubinsPathCalculator.normalize_angle`: run the two wrapping loops
in source order (exact real arithmetic). -/
noncomputable def normalize_angle (a : ℝ) : ℝ := wrapUp (wrapDown a)

/-- The IEEE binary64 value of `np.pi` — the double closest to `pi` —
exactly `884279719003555 / 2 ^ 48`. -/
noncomputable def npPi : ℝ := 884279719003555 / 2 ^ 48

/-- Round to nearest on the grid of binary64 doubles in the binade
`[2^56, 2^57)`, where consecutive doubles are `16` apart. This is the
exact IEEE rounding there except at ties, and it is only applied to
non-tie arguments below. -/
noncomputable def roundNear16 (r : ℝ) : ℝ := 16 * round (r / 16)

/-- One iteration of the first `normalize_angle` loop
(`while angle > pi: angle -= 2 * np.pi`) under IEEE double semantics
for an `angle` in the binade `[2^56, 2^57)`: the guard compares
against the double `np.pi`, the step `2 * np.pi` is exact in doubles
(a scaling of `np.pi` by 2), and the subtraction result is rounded
back to the double grid. In this binade `2 * np.pi < 8` is below half
an ulp, so the subtraction is absorbed. -/
noncomputable def floatLoopStep (a : ℝ) : ℝ :=
  if a > npPi then roundNear16 (a - 2 * npPi) else a

/-- Start pose of the tie-break counterexample input. -/
noncomputable def cexStart : Pose2D := ⟨0, 0, 0⟩

/-- End pose of the tie-break counterexample input: at this pose the
RSR, LSR and RSL candidates all have total length exactly
`2 + pi / 2`. -/
noncomputable def cexEnd : Pose2D := ⟨0, 2 - Real.pi / 2, Real.pi⟩

/-! ### Distance evaluation helpers -/

theorem distance_self (p : Pose2D) : distance p p = 0 := by
  simp [distance]

theorem distance_comm (p q : Pose2D) : distance p q = distance q p := by
  unfold distance
  ring_nf

theorem distance_vert (x y1 y2 t1 t2 : ℝ) (h : y1 ≤ y2) :
    distance ⟨x, y1, t1⟩ ⟨x, y2, t2⟩ = y2 - y1 := by
  unfold distance
  have hq : (x - x) ^ 2 + (y2 - y1) ^ 2 = (y2 - y1) ^ 2 := by ring
  rw [hq, Real.sqrt_sq (by linarith)]

theorem distance_horiz (x1 x2 y t1 t2 : ℝ) (h : x1 ≤ x2) :
    distance ⟨x1, y, t1⟩ ⟨x2, y, t2⟩ = x2 - x1 := by
  unfold distance
  have hq : (x2 - x1) ^ 2 + (y - y) ^ 2 = (x2 - x1) ^ 2 := by ring
  rw [hq, Real.sqrt_sq (by linarith)]

/-! ### Angle normalization (C9) -/

theorem wrapDown_le_pi (a : ℝ) : wrapDown a ≤ Real.pi := by
  induction a using wrapDown.induct with
  | case1 a h ih =>
    rw [wrapDown.eq_def, dif_pos h]
    exact ih
  | case2 a h =>
    rw [wrapDown.eq_def, dif_neg h]
    exact le_of_not_lt h

theorem wrapUp_ge (a : ℝ) : -Real.pi ≤ wrapUp a := by
  induction a using wrapUp.induct with
  | case1 a h ih =>
    rw [wrapUp.eq_def, dif_pos h]
    exact ih
  | case2 a h =>
    rw [wrapUp.eq_def, dif_neg h]
    exact le_of_not_lt h

theorem wrapUp_le_pi (a : ℝ) (ha : a ≤ Real.pi) : wrapUp a ≤ Real.pi := by
  induction a using wrapUp.induct with
  | case1 a h ih =>
    rw [wrapUp.eq_def, dif_pos h]
    exact ih (by linarith)
  | case2 a h =>
    rw [wrapUp.eq_def, dif_neg h]
    exact ha

/-- C9 (amended): in exact real arithmetic `normalize_angle`
terminates on every input (both wrapping loops are total functions,
each iteration moving the angle by `2 * pi` toward the target band),
its result always lies in the closed interval `[-pi, pi]`, and the
input `-pi` is returned unchanged, so the interval is closed at `-pi`
rather than the half-open `(-pi, pi]`. Under IEEE double semantics the
termination part does not extend to every finite float: for inputs of
magnitude at least `2^56` the `2 * np.pi` step is absorbed by rounding
and the first loop never terminates (recorded separately as the
counterexample for this claim). -/
theorem normalize_angle_spec :
    (∀ a : ℝ, normalize_angle a ∈ Set.Icc (-Real.pi) Real.pi) ∧
    normalize_angle (-Real.pi) = -Real.pi := by
  constructor
  · intro a
    exact Set.mem_Icc.mpr ⟨wrapUp_ge _, wrapUp_le_pi _ (wrapDown_le_pi a)⟩
  · unfold normalize_angle
    rw [wrapDown.eq_def, dif_neg (by linarith [Real.pi_pos]),
        wrapUp.eq_def, dif_neg (by simp)]

/-- C9 (counterexample): the finite double `1e17` lies in the binade
`[2^56, 2^57)`, where the double grid spacing is `16` and
`2 * np.pi < 8` is under half an ulp, so `angle - 2 * np.pi` rounds
back to `angle`: one iteration of the float loop is the identity while
the guard `angle > np.pi` still holds, hence the source loop
`while angle > pi: angle -= 2 * np.pi` never terminates on this finite
float input, refuting the claim that `normalize_angle` terminates for
every finite float input. -/
theorem normalize_angle_float_diverges :
    (10 ^ 17 : ℝ) > npPi ∧ floatLoopStep (10 ^ 17) = 10 ^ 17 := by
  have h3 : 0 < npPi := by norm_num [npPi]
  have h4 : npPi < 4 := by norm_num [npPi]
  have hgt : (10 ^ 17 : ℝ) > npPi := by
    have h5 : (4 : ℝ) < 10 ^ 17 := by norm_num
    linarith
  refine ⟨hgt, ?_⟩
  unfold floatLoopStep roundNear16
  rw [if_pos hgt]
  have h0 : (10 ^ 17 : ℝ) = 16 * 6250000000000000 := by norm_num
  rw [h0]
  have h1 : (16 * (6250000000000000 : ℝ) - 2 * npPi) / 16
      = 6250000000000000 - npPi / 8 := by ring
  rw [h1]
  have h2 : round ((6250000000000000 : ℝ) - npPi / 8) = 6250000000000000 := by
    rw [round_eq, Int.floor_eq_iff]
    constructor
    · push_cast
      linarith
    · push_cast
      linarith
  rw [h2]
  push_cast
  ring

/-! ### Selector: Python `min` returns the first minimum (C1) -/

theorem pyMin_nil (b : DubinsPath) : pyMin b [] = b := by
  simp [pyMin]

theorem pyMin_cons (b x : DubinsPath) (xs : List DubinsPath) :
    pyMin b (x :: xs)
      = pyMin (if x.total_length < b.total_length then x else b) xs := by
  simp only [pyMin]

theorem pyMin_first_min (b : DubinsPath) (l : List DubinsPath) :
    ∃ l1 l2, b :: l = l1 ++ pyMin b l :: l2 ∧
      (∀ q ∈ l1, (pyMin b l).total_length < q.total_length) ∧
      (∀ q ∈ l2, (pyMin b l).total_length ≤ q.total_length) := by
  induction l generalizing b with
  | nil =>
    exact ⟨[], [], by simp [pyMin_nil], by simp, by simp⟩
  | cons x xs ih =>
    by_cases h : x.total_length < b.total_length
    · have he : pyMin b (x :: xs) = pyMin x xs := by rw [pyMin_cons, if_pos h]
      obtain ⟨l1, l2, hsp, h1, h2⟩ := ih x
      have hrx : (pyMin x xs).total_length ≤ x.total_length := by
        cases l1 with
        | nil =>
          simp only [List.nil_append] at hsp
          injection hsp with hx _
          rw [← hx]
        | cons a t =>
          simp only [List.cons_append] at hsp
          injection hsp with hx _
          have hlt := h1 a (List.mem_cons_self a t)
          rw [← hx] at hlt
          exact le_of_lt hlt
      refine ⟨b :: l1, l2, ?_, ?_, ?_⟩
      · rw [he, List.cons_append, ← hsp]
      · intro q hq
        rcases List.mem_cons.mp hq with rfl | hq2
        · rw [he]; exact lt_of_le_of_lt hrx h
        · rw [he]; exact h1 q hq2
      · intro q hq
        rw [he]; exact h2 q hq
    · have he : pyMin b (x :: xs) = pyMin b xs := by rw [pyMin_cons, if_neg h]
      obtain ⟨l1, l2, hsp, h1, h2⟩ := ih b
      cases l1 with
      | nil =>
        simp only [List.nil_append] at hsp
        injection hsp with hb hxs
        refine ⟨[], x :: xs, ?_, ?_, ?_⟩
        · rw [he, ← hb, List.nil_append]
        · intro q hq; simp at hq
        · intro q hq
          rcases List.mem_cons.mp hq with rfl | hq2
          · rw [he, ← hb]; exact le_of_not_lt h
          · rw [he]; exact h2 q (hxs ▸ hq2)
      | cons a t =>
        simp only [List.cons_append] at hsp
        injection hsp with hb hxs
        have hrb : (pyMin b xs).total_length < b.total_length := by
          have hlt := h1 a (List.mem_cons_self a t)
          rwa [← hb] at hlt
        refine ⟨b :: x :: t, l2, ?_, ?_, ?_⟩
        · rw [he, List.cons_append, List.cons_append, ← hxs]
        · intro q hq
          rcases List.mem_cons.mp hq with rfl | hq2
          · rw [he]; exact hrb
          rcases List.mem_cons.mp hq2 with rfl | hq3
          · rw [he]; exact lt_of_lt_of_le hrb (le_of_not_lt h)
          · rw [he]; exact h1 q (List.mem_cons_of_mem a hq3)
        · intro q hq
          rw [he]; exact h2 q hq

/-- C1 (amended): for every start pose, end pose and `R > 0`,
`compute_optimal_path` evaluates all six family synthesizers, discards
the infeasible ones, and returns a feasible candidate whose
`total_length` is minimal among all feasible candidates; on ties the
candidate evaluated first in the fixed order LSL, RSR, LSR, RSL, LRL,
RLR is returned (Python `min` keeps the first minimum), not the
lexicographically first family name. -/
theorem compute_optimal_path_first_min (R : ℝ) (s e : Pose2D) (hR : 0 < R) :
    computeOptimalPath R s e ∈ candidatePaths R s e ∧
    (∀ q ∈ candidatePaths R s e,
      (computeOptimalPath R s e).total_length ≤ q.total_length) ∧
    ∃ l1 l2, candidatePaths R s e = l1 ++ computeOptimalPath R s e :: l2 ∧
      ∀ q ∈ l1, (computeOptimalPath R s e).total_length < q.total_length := by
  have hmem : (⟨"LSR", [], distance s e + Real.pi * R, s, e⟩ : DubinsPath)
      ∈ candidatePaths R s e := by
    unfold candidatePaths computeLSR
    simp
  have hne : candidatePaths R s e ≠ [] := List.ne_nil_of_mem hmem
  obtain ⟨h, t, hc⟩ : ∃ h t, candidatePaths R s e = h :: t := by
    cases hcp : candidatePaths R s e with
    | nil => exact absurd hcp hne
    | cons h t => exact ⟨h, t, rfl⟩
  have hopt : computeOptimalPath R s e = pyMin h t := by
    unfold computeOptimalPath
    rw [hc]
  obtain ⟨l1, l2, hsp, h1, h2⟩ := pyMin_first_min h t
  refine ⟨?_, ?_, l1, l2, ?_, ?_⟩
  · rw [hopt, hc, hsp]
    exact List.mem_append_right l1 (List.mem_cons_self _ _)
  · intro q hq
    rw [hc, hsp] at hq
    rw [hopt]
    rcases List.mem_append.mp hq with hq1 | hq2
    · exact le_of_lt (h1 q hq1)
    · rcases List.mem_cons.mp hq2 with rfl | hq3
      · exact le_rfl
      · exact h2 q hq3
  · rw [hopt, hc]
    exact hsp
  · intro q hq
    rw [hopt]
    exact h1 q hq

/-- Witness for `compute_optimal_path_first_min` at the concrete input
`start = end = (0, 0, 0)`, `R = 1`. -/
theorem compute_optimal_path_first_min_witness :
    (0 : ℝ) < 1 ∧
    (computeOptimalPath 1 ⟨0, 0, 0⟩ ⟨0, 0, 0⟩ ∈ candidatePaths 1 ⟨0, 0, 0⟩ ⟨0, 0, 0⟩ ∧
     (∀ q ∈ candidatePaths 1 ⟨0, 0, 0⟩ ⟨0, 0, 0⟩,
       (computeOptimalPath 1 ⟨0, 0, 0⟩ ⟨0, 0, 0⟩).total_length ≤ q.total_length) ∧
     ∃ l1 l2, candidatePaths 1 ⟨0, 0, 0⟩ ⟨0, 0, 0⟩
         = l1 ++ computeOptimalPath 1 ⟨0, 0, 0⟩ ⟨0, 0, 0⟩ :: l2 ∧
       ∀ q ∈ l1, (computeOptimalPath 1 ⟨0, 0, 0⟩ ⟨0, 0, 0⟩).total_length < q.total_length) :=
  ⟨by norm_num, compute_optimal_path_first_min 1 ⟨0, 0, 0⟩ ⟨0, 0, 0⟩ (by norm_num)⟩

/-! ### Evaluation of the selector at the tie-break counterexample -/

theorem left_cex_s : leftCircleCenter 1 cexStart = ⟨0, -1, 0⟩ := by
  unfold leftCircleCenter cexStart
  norm_num [Real.sin_zero, Real.cos_zero]

theorem left_cex_e : leftCircleCenter 1 cexEnd = ⟨0, 3 - Real.pi / 2, 0⟩ := by
  unfold leftCircleCenter cexEnd
  norm_num [Real.sin_pi, Real.cos_pi]
  ring

theorem right_cex_s : rightCircleCenter 1 cexStart = ⟨0, 1, 0⟩ := by
  unfold rightCircleCenter cexStart
  norm_num [Real.sin_zero, Real.cos_zero]

theorem right_cex_e : rightCircleCenter 1 cexEnd = ⟨0, 1 - Real.pi / 2, 0⟩ := by
  unfold rightCircleCenter cexEnd
  norm_num [Real.sin_pi, Real.cos_pi]
  ring

theorem dist_cex : distance cexStart cexEnd = 2 - Real.pi / 2 := by
  unfold cexStart cexEnd
  rw [distance_vert 0 0 (2 - Real.pi / 2) 0 Real.pi (by linarith [Real.pi_lt_d2])]
  ring

theorem lsl_cex : computeLSL 1 cexStart cexEnd
    = some ⟨"LSL", [], 6 - Real.pi / 2, cexStart, cexEnd⟩ := by
  unfold computeLSL
  rw [left_cex_s, left_cex_e,
      distance_vert 0 (-1) (3 - Real.pi / 2) 0 0 (by linarith [Real.pi_lt_d2]),
      if_neg (show ¬(3 - Real.pi / 2 - (-1) > 4 * 1) by push_neg; linarith [Real.pi_pos])]
  simp only [Option.some.injEq, DubinsPath.mk.injEq, and_true, true_and]
  ring

theorem rsr_cex : computeRSR 1 cexStart cexEnd
    = some ⟨"RSR", [], 2 + Real.pi / 2, cexStart, cexEnd⟩ := by
  unfold computeRSR
  rw [right_cex_s, right_cex_e, distance_comm,
      distance_vert 0 (1 - Real.pi / 2) 1 0 0 (by linarith [Real.pi_pos]),
      if_neg (show ¬(1 - (1 - Real.pi / 2) > 4 * 1) by push_neg; linarith [Real.pi_lt_d2])]
  simp only [Option.some.injEq, DubinsPath.mk.injEq, and_true, true_and]
  ring

theorem lsr_cex : computeLSR 1 cexStart cexEnd
    = some ⟨"LSR", [], 2 + Real.pi / 2, cexStart, cexEnd⟩ := by
  unfold computeLSR
  rw [dist_cex]
  simp only [Option.some.injEq, DubinsPath.mk.injEq, and_true, true_and]
  ring

theorem rsl_cex : computeRSL 1 cexStart cexEnd
    = some ⟨"RSL", [], 2 + Real.pi / 2, cexStart, cexEnd⟩ := by
  unfold computeRSL
  rw [dist_cex]
  simp only [Option.some.injEq, DubinsPath.mk.injEq, and_true, true_and]
  ring

theorem lrl_cex : computeLRL 1 cexStart cexEnd
    = some ⟨"LRL", [], 2 + Real.pi, cexStart, cexEnd⟩ := by
  unfold computeLRL
  rw [dist_cex]
  simp only [Option.some.injEq, DubinsPath.mk.injEq, and_true, true_and]
  ring

theorem rlr_cex : computeRLR 1 cexStart cexEnd
    = some ⟨"RLR", [], 2 + Real.pi, cexStart, cexEnd⟩ := by
  unfold computeRLR
  rw [dist_cex]
  simp only [Option.some.injEq, DubinsPath.mk.injEq, and_true, true_and]
  ring

theorem opt_cex : computeOptimalPath 1 cexStart cexEnd
    = ⟨"RSR", [], 2 + Real.pi / 2, cexStart, cexEnd⟩ := by
  unfold computeOptimalPath candidatePaths
  rw [lsl_cex, rsr_cex, lsr_cex, rsl_cex, lrl_cex, rlr_cex]
  simp only [Option.toList_some, List.cons_append, List.nil_append]
  rw [pyMin_cons]
  dsimp only
  rw [if_pos (show (2 : ℝ) + Real.pi / 2 < 6 - Real.pi / 2 by linarith [Real.pi_lt_d2])]
  rw [pyMin_cons]
  dsimp only
  rw [if_neg (show ¬((2 : ℝ) + Real.pi / 2 < 2 + Real.pi / 2) by simp)]
  rw [pyMin_cons]
  dsimp only
  rw [if_neg (show ¬((2 : ℝ) + Real.pi / 2 < 2 + Real.pi / 2) by simp)]
  rw [pyMin_cons]
  dsimp only
  rw [if_neg (show ¬((2 : ℝ) + Real.pi < 2 + Real.pi / 2) by push_neg; linarith [Real.pi_pos])]
  rw [pyMin_cons]
  dsimp only
  rw [if_neg (show ¬((2 : ℝ) + Real.pi < 2 + Real.pi / 2) by push_neg; linarith [Real.pi_pos])]
  rw [pyMin_nil]

/-- C1 (counterexample): at start `(0, 0, 0)`, end `(0, 2 - pi/2, pi)`,
`R = 1`, the feasible candidates RSR, LSR and RSL all tie exactly at the
minimal total length `2 + pi/2`; the family name "LSR" is
lexicographically smaller than "RSR", yet `compute_optimal_path`
returns the RSR path, so the claimed lexicographic tie-break is false. -/
theorem optimal_tie_not_lex :
    (computeOptimalPath 1 cexStart cexEnd).path_type = "RSR" ∧
    Option.map DubinsPath.total_length (computeLSR 1 cexStart cexEnd)
      = some (computeOptimalPath 1 cexStart cexEnd).total_length ∧
    "LSR" < "RSR" := by
  refine ⟨?_, ?_, by rw [String.lt_iff_toList_lt]; decide⟩
  · rw [opt_cex]
  · rw [opt_cex, lsr_cex]
    rfl

/-! ### Evaluations at simple axis-aligned inputs (C2 - C7) -/

theorem left_x (a : ℝ) : leftCircleCenter 1 ⟨a, 0, 0⟩ = ⟨a, -1, 0⟩ := by
  unfold leftCircleCenter
  norm_num [Real.sin_zero, Real.cos_zero]

theorem right_end_pi : rightCircleCenter 1 ⟨0, 0, Real.pi⟩ = ⟨0, -1, 0⟩ := by
  unfold rightCircleCenter
  norm_num [Real.sin_pi, Real.cos_pi]

theorem lsl_p0 : computeLSL 1 ⟨0, 0, 0⟩ ⟨0, 0, 0⟩
    = some ⟨"LSL", [], 2, ⟨0, 0, 0⟩, ⟨0, 0, 0⟩⟩ := by
  unfold computeLSL
  rw [distance_self, if_neg (show ¬((0 : ℝ) > 4 * 1) by norm_num)]
  simp only [Option.some.injEq, DubinsPath.mk.injEq, and_true, true_and]
  norm_num

theorem rsr_p0 : computeRSR 1 ⟨0, 0, 0⟩ ⟨0, 0, 0⟩
    = some ⟨"RSR", [], 2, ⟨0, 0, 0⟩, ⟨0, 0, 0⟩⟩ := by
  unfold computeRSR
  rw [distance_self, if_neg (show ¬((0 : ℝ) > 4 * 1) by norm_num)]
  simp only [Option.some.injEq, DubinsPath.mk.injEq, and_true, true_and]
  norm_num

theorem lsr_p0 : computeLSR 1 ⟨0, 0, 0⟩ ⟨0, 0, 0⟩
    = some ⟨"LSR", [], Real.pi, ⟨0, 0, 0⟩, ⟨0, 0, 0⟩⟩ := by
  unfold computeLSR
  rw [distance_self]
  simp only [Option.some.injEq, DubinsPath.mk.injEq, and_true, true_and]
  ring

theorem rsl_p0 : computeRSL 1 ⟨0, 0, 0⟩ ⟨0, 0, 0⟩
    = some ⟨"RSL", [], Real.pi, ⟨0, 0, 0⟩, ⟨0, 0, 0⟩⟩ := by
  unfold computeRSL
  rw [distance_self]
  simp only [Option.some.injEq, DubinsPath.mk.injEq, and_true, true_and]
  ring

theorem lrl_p0 : computeLRL 1 ⟨0, 0, 0⟩ ⟨0, 0, 0⟩
    = some ⟨"LRL", [], 1.5 * Real.pi, ⟨0, 0, 0⟩, ⟨0, 0, 0⟩⟩ := by
  unfold computeLRL
  rw [distance_self]
  simp only [Option.some.injEq, DubinsPath.mk.injEq, and_true, true_and]
  ring

theorem rlr_p0 : computeRLR 1 ⟨0, 0, 0⟩ ⟨0, 0, 0⟩
    = some ⟨"RLR", [], 1.5 * Real.pi, ⟨0, 0, 0⟩, ⟨0, 0, 0⟩⟩ := by
  unfold computeRLR
  rw [distance_self]
  simp only [Option.some.injEq, DubinsPath.mk.injEq, and_true, true_and]
  ring

theorem opt_p0 : computeOptimalPath 1 ⟨0, 0, 0⟩ ⟨0, 0, 0⟩
    = ⟨"LSL", [], 2, ⟨0, 0, 0⟩, ⟨0, 0, 0⟩⟩ := by
  unfold computeOptimalPath candidatePaths
  rw [lsl_p0, rsr_p0, lsr_p0, rsl_p0, lrl_p0, rlr_p0]
  simp only [Option.toList_some, List.cons_append, List.nil_append]
  rw [pyMin_cons]
  dsimp only
  rw [if_neg (show ¬((2 : ℝ) < 2) by simp)]
  rw [pyMin_cons]
  dsimp only
  rw [if_neg (show ¬(Real.pi < 2) by push_neg; linarith [Real.pi_gt_three])]
  rw [pyMin_cons]
  dsimp only
  rw [if_neg (show ¬(Real.pi < 2) by push_neg; linarith [Real.pi_gt_three])]
  rw [pyMin_cons]
  dsimp only
  rw [if_neg (show ¬(1.5 * Real.pi < 2) by push_neg; linarith [Real.pi_gt_three])]
  rw [pyMin_cons]
  dsimp only
  rw [if_neg (show ¬(1.5 * Real.pi < 2) by push_neg; linarith [Real.pi_gt_three])]
  rw [pyMin_nil]

/-- C2: at start `(0,0,0)`, end `(1,0,0)`, `R = 1`, the LSL synthesizer
returns a path with an empty segment list — 0 segments instead of the
claimed 3 — whose segment lengths sum to 0 while the reported
`total_length` is 3: the code stubs out all segment geometry
(`segments=[]` in every synthesizer). -/
theorem lsl_segments_stubbed :
    Option.map
        (fun p => (p.segments.length, (p.segments.map DubinsSegment.length).sum,
          p.total_length))
        (computeLSL 1 ⟨0, 0, 0⟩ ⟨1, 0, 0⟩)
      = some (0, 0, 3) ∧ (0 : ℕ) ≠ 3 ∧ (0 : ℝ) ≠ 3 := by
  have h : computeLSL 1 ⟨0, 0, 0⟩ ⟨1, 0, 0⟩
      = some ⟨"LSL", [], 3, ⟨0, 0, 0⟩, ⟨1, 0, 0⟩⟩ := by
    unfold computeLSL
    rw [left_x 0, left_x 1, distance_horiz 0 1 (-1) 0 0 (by norm_num),
        if_neg (show ¬((1 : ℝ) - 0 > 4 * 1) by norm_num)]
    simp only [Option.some.injEq, DubinsPath.mk.injEq, and_true, true_and]
    norm_num
  rw [h]
  exact ⟨rfl, by norm_num, by norm_num⟩

/-- C3: at start `(0,0,0)`, end `(5,0,0)`, `R = 1`, the left-circle
centers are `5` apart (`d = 5 ≥ 0`), yet `compute_lsl` returns `None`:
the code rejects the same-side family whenever `d > 4R`, contradicting
the claim that LSL/RSR are feasible for every center distance `d ≥ 0`. -/
theorem lsl_rejects_far_same_side :
    distance (leftCircleCenter 1 ⟨0, 0, 0⟩) (leftCircleCenter 1 ⟨5, 0, 0⟩) = 5 ∧
    computeLSL 1 ⟨0, 0, 0⟩ ⟨5, 0, 0⟩ = none := by
  constructor
  · rw [left_x 0, left_x 5, distance_horiz 0 5 (-1) 0 0 (by norm_num)]
    norm_num
  · unfold computeLSL
    rw [left_x 0, left_x 5, distance_horiz 0 5 (-1) 0 0 (by norm_num),
        if_pos (show (5 : ℝ) - 0 > 4 * 1 by norm_num)]

/-- C4: at start `(0,0,0)`, end `(0,0,pi)`, `R = 1`, the opposite-turn
circles of the LSR family coincide (`d = 0 < 2R`), yet `compute_lsr`
still returns a path (of length `distance(start,end) + pi*R = pi`): the
code performs no `d ≥ 2R` feasibility check and no
`sqrt(d^2 - 4R^2)` tangent construction at all. -/
theorem lsr_ignores_overlap :
    distance (leftCircleCenter 1 ⟨0, 0, 0⟩) (rightCircleCenter 1 ⟨0, 0, Real.pi⟩) = 0 ∧
    (0 : ℝ) < 2 * 1 ∧
    computeLSR 1 ⟨0, 0, 0⟩ ⟨0, 0, Real.pi⟩
      = some ⟨"LSR", [], Real.pi, ⟨0, 0, 0⟩, ⟨0, 0, Real.pi⟩⟩ := by
  refine ⟨?_, by norm_num, ?_⟩
  · rw [left_x 0, right_end_pi, distance_self]
  · unfold computeLSR
    rw [distance_vert 0 0 0 0 Real.pi le_rfl]
    simp only [Option.some.injEq, DubinsPath.mk.injEq, and_true, true_and]
    ring

/-- C5: at start `(0,0,0)`, end `(10,0,0)`, `R = 1`, the outer
left-turn circle centers are `10 > 4R` apart, yet `compute_lrl` still
returns a path — and its length `1.5*pi*R + distance(start,end)`
contains the straight-line distance, not a sum of three arc lengths:
the code enforces no `d ≤ 4R` bound for the three-arc families. -/
theorem lrl_ignores_four_r_bound :
    distance (leftCircleCenter 1 ⟨0, 0, 0⟩) (leftCircleCenter 1 ⟨10, 0, 0⟩) = 10 ∧
    4 * (1 : ℝ) < 10 ∧
    computeLRL 1 ⟨0, 0, 0⟩ ⟨10, 0, 0⟩
      = some ⟨"LRL", [], 1.5 * Real.pi + 10, ⟨0, 0, 0⟩, ⟨10, 0, 0⟩⟩ := by
  refine ⟨?_, by norm_num, ?_⟩
  · rw [left_x 0, left_x 10, distance_horiz 0 10 (-1) 0 0 (by norm_num)]
    norm_num
  · unfold computeLRL
    rw [distance_horiz 0 10 0 0 0 (by norm_num)]
    simp only [Option.some.injEq, DubinsPath.mk.injEq, and_true, true_and]
    ring

/-- C6: the straight-line fallback constructed by
`compute_optimal_path` when no family is feasible carries the family
tag "LSL", which is one of the six family names ("LSL", "RSR", "LSR",
"RSL", "LRL", "RLR"), and `DubinsPath` has no other distinguishing
field: the fallback is indistinguishable from a genuine LSL path,
contrary to the claim. -/
theorem fallback_tagged_lsl :
    (fallbackPath ⟨0, 0, 0⟩ ⟨3, 0, 0⟩).path_type = "LSL" ∧
    "LSL" ∈ ["LSL", "RSR", "LSR", "RSL", "LRL", "RLR"] :=
  ⟨rfl, by simp⟩

/-- C7: for the identical pose `p = (0,0,0)` and `R = 1`,
`compute_optimal_path(p, p)` returns a path of total length `2`
(`= 2R`, the degenerate LSL candidate `d + 2R` at `d = 0`), not the
zero-length path the claim requires. -/
theorem optimal_same_pose_not_zero :
    (computeOptimalPath 1 ⟨0, 0, 0⟩ ⟨0, 0, 0⟩).total_length = 2 ∧ (2 : ℝ) ≠ 0 := by
  refine ⟨?_, by norm_num⟩
  rw [opt_p0]

/-! ### Envelope engine: hull indices stay inside the input (C8, C10) -/

theorem mem_addPoint {x c : ℕ × QPoint} :
    ∀ {s : List (ℕ × QPoint)}, x ∈ addPoint c s → x = c ∨ x ∈ s := by
  intro s
  induction s with
  | nil =>
    intro h
    simpa [addPoint] using h
  | cons b t ih =>
    intro h
    cases t with
    | nil =>
      simp only [addPoint] at h
      rcases List.mem_cons.mp h with rfl | h2
      · exact Or.inl rfl
      · exact Or.inr h2
    | cons a r =>
      simp only [addPoint] at h
      by_cases hc : cross a.2 b.2 c.2 ≤ 0
      · rw [if_pos hc] at h
        rcases ih h with h1 | h2
        · exact Or.inl h1
        · exact Or.inr (List.mem_cons_of_mem b h2)
      · rw [if_neg hc] at h
        rcases List.mem_cons.mp h with rfl | h2
        · exact Or.inl rfl
        · exact Or.inr h2

theorem mem_foldl_addPoint (x : ℕ × QPoint) :
    ∀ (l s : List (ℕ × QPoint)),
      x ∈ l.foldl (fun st c => addPoint c st) s → x ∈ l ∨ x ∈ s := by
  intro l
  induction l with
  | nil =>
    intro s hs
    exact Or.inr (by simpa using hs)
  | cons y ys ih =>
    intro s hs
    simp only [List.foldl_cons] at hs
    rcases ih (addPoint y s) hs with h1 | h2
    · exact Or.inl (List.mem_cons_of_mem y h1)
    · rcases mem_addPoint h2 with h3 | h3
      · rw [h3]
        exact Or.inl (List.mem_cons_self _ _)
      · exact Or.inr h3

theorem mem_buildHalf {x : ℕ × QPoint} {l : List (ℕ × QPoint)}
    (h : x ∈ buildHalf l) : x ∈ l := by
  rcases mem_foldl_addPoint x l [] (by simpa [buildHalf] using h) with h1 | h2
  · exact h1
  · simp at h2

theorem mem_insertPair {x c : ℕ × QPoint} :
    ∀ {l : List (ℕ × QPoint)}, x ∈ insertPair c l → x = c ∨ x ∈ l := by
  intro l
  induction l with
  | nil =>
    intro h
    simpa [insertPair] using h
  | cons y ys ih =>
    intro h
    simp only [insertPair] at h
    by_cases hc : ptLeB c.2 y.2 = true
    · rw [if_pos hc] at h
      rcases List.mem_cons.mp h with rfl | h2
      · exact Or.inl rfl
      · exact Or.inr h2
    · rw [if_neg hc] at h
      rcases List.mem_cons.mp h with h2 | h2
      · rw [h2]
        exact Or.inr (List.mem_cons_self _ _)
      · rcases ih h2 with h3 | h4
        · exact Or.inl h3
        · exact Or.inr (List.mem_cons_of_mem y h4)

theorem mem_sortPairs {x : ℕ × QPoint} :
    ∀ {l : List (ℕ × QPoint)}, x ∈ sortPairs l → x ∈ l := by
  intro l
  induction l with
  | nil =>
    intro h
    simpa [sortPairs] using h
  | cons y ys ih =>
    intro h
    simp only [sortPairs] at h
    rcases mem_insertPair h with h2 | h2
    · rw [h2]
      exact List.mem_cons_self _ _
    · exact List.mem_cons_of_mem y (ih h2)

theorem monotoneChain_indices_lt (pts : List QPoint) :
    ∀ i ∈ monotoneChainIndices pts, i < pts.length := by
  intro i hi
  unfold monotoneChainIndices at hi
  simp only [List.mem_map] at hi
  obtain ⟨pr, hpr, hfst⟩ := hi
  have hpairs : pr ∈ sortPairs ((List.range pts.length).zip pts) := by
    rcases List.mem_append.mp hpr with h1 | h2
    · exact mem_buildHalf (List.mem_reverse.mp ((List.dropLast_sublist _).subset h1))
    · exact List.mem_reverse.mp
        (mem_buildHalf (List.mem_reverse.mp ((List.dropLast_sublist _).subset h2)))
  have hzip : pr ∈ (List.range pts.length).zip pts := mem_sortPairs hpairs
  obtain ⟨i1, p1⟩ := pr
  have hlt := (List.of_mem_zip hzip).1
  rw [List.mem_range] at hlt
  subst hfst
  exact hlt

theorem hullIndicesOf_lt (points : List QPoint) (idxs : List ℕ)
    (h : hullIndicesOf points = .ok idxs) : ∀ i ∈ idxs, i < points.length := by
  unfold hullIndicesOf at h
  by_cases hlen : points.length < 3
  · rw [if_pos hlen] at h
    injection h with h2
    subst h2
    intro i hi
    exact List.mem_range.mp hi
  · rw [if_neg hlen] at h
    unfold qhullVertices at h
    by_cases hcol : allCollinear points = true
    · rw [if_pos hcol] at h
      exact Except.noConfusion h
    · rw [if_neg hcol] at h
      injection h with h2
      subst h2
      exact monotoneChain_indices_lt points

theorem getD_map_of_lt {α β : Type} (f : α → β) :
    ∀ (l : List α) (k : ℕ), k < l.length → ∀ (d : β) (d2 : α),
      (l.map f).getD k d = f (l.getD k d2) := by
  intro l
  induction l with
  | nil =>
    intro k hk
    simp at hk
  | cons a t ih =>
    intro k hk d d2
    cases k with
    | zero => simp [List.getD_cons_zero]
    | succ n =>
      simp only [List.map_cons, List.getD_cons_succ]
      exact ih n (by simpa using hk) d d2

theorem computeFlexibleEnvelope_ok_inv (disks : List Disk)
    (resp : FlexibleEnvelopeResponse) (hne : disks ≠ [])
    (hok : computeFlexibleEnvelope disks = .ok resp) :
    ∃ idxs, hullIndicesOf (disks.map fun d => (d.center.x, d.center.y)) = .ok idxs ∧
      resp = envelopeOf disks idxs := by
  unfold computeFlexibleEnvelope at hok
  rw [if_neg (by simpa [List.isEmpty_iff] using hne)] at hok
  rcases hE : hullIndicesOf (disks.map fun d => (d.center.x, d.center.y)) with e | idxs
  · rw [hE] at hok
    exact Except.noConfusion hok
  · rw [hE] at hok
    injection hok with hresp
    exact ⟨idxs, hE, hresp.symm⟩

/-- C10: for every non-empty disk list on which the envelope endpoint
returns successfully, `envelope_points` and `convex_hull_indices` have
equal length, every returned index is a valid position in the original
input list, and the `k`-th envelope point is the center of the input
disk at index `convex_hull_indices[k]` (indices refer to original
input positions). -/
theorem envelope_indices_valid (disks : List Disk) (resp : FlexibleEnvelopeResponse)
    (hne : disks ≠ []) (hok : computeFlexibleEnvelope disks = .ok resp) :
    resp.envelope_points.length = resp.convex_hull_indices.length ∧
    (∀ i ∈ resp.convex_hull_indices, i < disks.length) ∧
    ∀ k, k < resp.convex_hull_indices.length →
      resp.envelope_points.getD k ⟨0, 0, none⟩ =
        ⟨(disks.getD (resp.convex_hull_indices.getD k 0) defaultDisk).center.x,
         (disks.getD (resp.convex_hull_indices.getD k 0) defaultDisk).center.y, none⟩ := by
  obtain ⟨idxs, hE, hresp⟩ := computeFlexibleEnvelope_ok_inv disks resp hne hok
  subst hresp
  have hlt := hullIndicesOf_lt _ idxs hE
  have hlen : (disks.map fun d => ((d.center.x, d.center.y) : QPoint)).length
      = disks.length := by simp
  refine ⟨?_, ?_, ?_⟩
  · simp [envelopeOf]
  · intro i hi
    have hi2 := hlt i (by simpa [envelopeOf] using hi)
    rwa [hlen] at hi2
  · intro k hk
    simp only [envelopeOf] at hk ⊢
    exact getD_map_of_lt _ idxs k (by simpa using hk) _ 0

/-- Witness for `envelope_indices_valid` at the three-disk triangle
input `witDisks`. -/
theorem envelope_indices_valid_witness :
    (witDisks ≠ [] ∧ computeFlexibleEnvelope witDisks = .ok witResp) ∧
    (witResp.envelope_points.length = witResp.convex_hull_indices.length ∧
     (∀ i ∈ witResp.convex_hull_indices, i < witDisks.length) ∧
     ∀ k, k < witResp.convex_hull_indices.length →
       witResp.envelope_points.getD k ⟨0, 0, none⟩ =
         ⟨(witDisks.getD (witResp.convex_hull_indices.getD k 0) defaultDisk).center.x,
          (witDisks.getD (witResp.convex_hull_indices.getD k 0) defaultDisk).center.y,
          none⟩) :=
  ⟨⟨by simp [witDisks], by norm_num [computeFlexibleEnvelope, witDisks, witResp, hullIndicesOf, qhullVertices, allCollinear, cross, monotoneChainIndices, sortPairs, insertPair, ptLeB, buildHalf, addPoint, envelopeOf, defaultDisk]⟩,
   envelope_indices_valid witDisks witResp (by simp [witDisks])
     (by norm_num [computeFlexibleEnvelope, witDisks, witResp, hullIndicesOf, qhullVertices, allCollinear, cross, monotoneChainIndices, sortPairs, insertPair, ptLeB, buildHalf, addPoint, envelopeOf, defaultDisk])⟩

/-- C8: on the three collinear disks centered at `(0,0)`, `(1,0)`,
`(2,0)` the envelope endpoint does not return a degenerate 2-point
hull: the scipy hull raises `QhullError` on the rank-deficient input
and the endpoint surfaces it as an error (HTTP 500), exactly the crash
the claim forbids. -/
theorem envelope_collinear_raises :
    computeFlexibleEnvelope [⟨⟨0, 0, 0⟩, 1⟩, ⟨⟨1, 0, 0⟩, 1⟩, ⟨⟨2, 0, 0⟩, 1⟩]
      = .error "QhullError" := by
  norm_num [computeFlexibleEnvelope, hullIndicesOf, qhullVertices, allCollinear, cross]

end Knots
